import Mathlib

/-!
Verification of the market-basket query engine of `src/app.py`.

The embedding models the non-UI logic of the Streamlit script:
transaction loading (lines 31-35), the item frequency table (lines 40-43),
co-occurrence counting (lines 102-114), the recommendation loop
(lines 163-186), and rule filtering and sorting (lines 260-264).
Items are strings, metric values (support, confidence, lift, conviction)
are rationals.
-/

/-- An association rule row as decoded from the rules table: the set columns
as item lists, plus the four metric columns (source columns of
`association_rules.csv`, used at lines 166-167, 260-264, 286). -/
structure AssocRule where
  antecedents : List String
  consequents : List String
  support : ℚ
  confidence : ℚ
  lift : ℚ
  conviction : ℚ
deriving DecidableEq, Repr

/-- The value stored per recommended product at lines 174-178 and 182-186:
the chosen rule confidence, lift and support. -/
structure RecEntry where
  confidence : ℚ
  lift : ℚ
  support : ℚ
deriving DecidableEq, Repr

/-- The triple recorded for a rule, as built at lines 174-178. -/
def tripleOf (r : AssocRule) : RecEntry :=
  ⟨r.confidence, r.lift, r.support⟩

/-- Lookup in the `recommendations` dict, modelled as an association list
with insertion-ordered keys (Python dict). -/
def lookupRec : List (String × RecEntry) → String → Option RecEntry
  | [], _ => none
  | (k, v) :: m, key => if k = key then some v else lookupRec m key

/-- Python dict assignment `m[k] = v`: replace the value in place when the
key is present, append the pair otherwise. -/
def dictUpd : List (String × RecEntry) → String → RecEntry → List (String × RecEntry)
  | [], k, v => [(k, v)]
  | (k0, v0) :: m, k, v =>
    if k0 = k then (k0, v) :: m else (k0, v0) :: dictUpd m k v

/-- Body of the inner loop at lines 171-186 for one consequent item `c`:
skip items already in the cart; record the triple when `c` is new; replace
it only when the new rule confidence strictly exceeds the recorded one. -/
def considerOne (cart : List String) (t : RecEntry)
    (m : List (String × RecEntry)) (c : String) : List (String × RecEntry) :=
  if c ∈ cart then m
  else
    match lookupRec m c with
    | none => dictUpd m c t
    | some old => if old.confidence < t.confidence then dictUpd m c t else m

/-- The loop `for consequent in consequents` at lines 171-186. -/
def consLoop (cart : List String) (t : RecEntry)
    (m : List (String × RecEntry)) : List String → List (String × RecEntry)
  | [] => m
  | c :: cs => consLoop cart t (considerOne cart t m c) cs

/-- One iteration of the outer rule loop (lines 165-186): the rule fires
when every antecedent item is in the cart
(`all(item in selected_products for item in antecedents)`, line 170). -/
def processRule (cart : List String) (m : List (String × RecEntry))
    (r : AssocRule) : List (String × RecEntry) :=
  if ∀ a ∈ r.antecedents, a ∈ cart then consLoop cart (tripleOf r) m r.consequents
  else m

/-- The outer loop `for idx, row in rules.iterrows()` at line 165. -/
def recLoop (cart : List String) (m : List (String × RecEntry)) :
    List AssocRule → List (String × RecEntry)
  | [] => m
  | r :: rs => recLoop cart (processRule cart m r) rs

/-- The whole recommendation computation of lines 163-186, starting from the
empty dict `recommendations = \x7b\x7d`. -/
def recommendations (cart : List String) (rules : List AssocRule) :
    List (String × RecEntry) :=
  recLoop cart [] rules

/-- Follows the spec resolution rule: the first candidate records its
triple, a later one replaces it only when its confidence strictly exceeds
the recorded confidence. -/
def bestStep (b : Option RecEntry) (t : RecEntry) : Option RecEntry :=
  match b with
  | none => some t
  | some b0 => if b0.confidence < t.confidence then some t else some b0

/-- Follows the spec words: scan the candidate triples in order, resolving
each with `bestStep`. -/
def bestScan (b : Option RecEntry) : List RecEntry → Option RecEntry
  | [] => b
  | t :: ts => bestScan (bestStep b t) ts

/-- The triples of the candidate rules for one item, in rule input order:
rules whose antecedent is contained in the cart and whose consequent
contains the item. -/
def candTriples (cart : List String) (item : String)
    (rules : List AssocRule) : List RecEntry :=
  (rules.filter
      (fun r => decide ((∀ a ∈ r.antecedents, a ∈ cart) ∧ item ∈ r.consequents))).map
    tripleOf

/-- A rule `{A} -> {B}` with confidence 0.9 (the two-rule example of the
spec). -/
def ruleHi : AssocRule :=
  ⟨["A"], ["B"], mkRat 1 100, mkRat 9 10, 2, 3⟩

/-- A rule `{A} -> {B}` with confidence 0.5 (the two-rule example of the
spec). -/
def ruleLo : AssocRule :=
  ⟨["A"], ["B"], mkRat 2 100, mkRat 1 2, 5, 7⟩

lemma lookupRec_dictUpd_self (m : List (String × RecEntry)) (k : String)
    (v : RecEntry) : lookupRec (dictUpd m k v) k = some v := by
  induction m with
  | nil => simp [dictUpd, lookupRec]
  | cons p m ih =>
    obtain ⟨k0, v0⟩ := p
    by_cases h : k0 = k
    · subst h
      simp [dictUpd, lookupRec]
    · simp [dictUpd, lookupRec, h, ih]

lemma lookupRec_dictUpd_ne (m : List (String × RecEntry)) (k key : String)
    (v : RecEntry) (h : k ≠ key) :
    lookupRec (dictUpd m k v) key = lookupRec m key := by
  induction m with
  | nil => simp [dictUpd, lookupRec, h]
  | cons p m ih =>
    obtain ⟨k0, v0⟩ := p
    by_cases h0 : k0 = k
    · subst h0
      simp [dictUpd, lookupRec, h]
    · simp [dictUpd, lookupRec, h0, ih]

lemma considerOne_lookup_self (cart : List String) (t : RecEntry)
    (m : List (String × RecEntry)) (c : String) (h : c ∉ cart) :
    lookupRec (considerOne cart t m c) c = bestStep (lookupRec m c) t := by
  unfold considerOne
  rw [if_neg h]
  cases hm : lookupRec m c with
  | none => simp [bestStep, lookupRec_dictUpd_self]
  | some old =>
    by_cases hlt : old.confidence < t.confidence
    · simp [bestStep, hlt, lookupRec_dictUpd_self]
    · simp [bestStep, hlt, hm]

lemma considerOne_lookup_ne (cart : List String) (t : RecEntry)
    (m : List (String × RecEntry)) (c key : String) (h : c ≠ key) :
    lookupRec (considerOne cart t m c) key = lookupRec m key := by
  unfold considerOne
  by_cases hc : c ∈ cart
  · rw [if_pos hc]
  · rw [if_neg hc]
    cases hm : lookupRec m c with
    | none => exact lookupRec_dictUpd_ne m c key t h
    | some old =>
      by_cases hlt : old.confidence < t.confidence
      · simp [hlt, lookupRec_dictUpd_ne m c key t h]
      · simp [hlt]

lemma bestStep_idem (b : Option RecEntry) (t : RecEntry) :
    bestStep (bestStep b t) t = bestStep b t := by
  cases b with
  | none => simp [bestStep]
  | some b0 =>
    by_cases h : b0.confidence < t.confidence
    · simp [bestStep, h]
    · simp [bestStep, h]

lemma consLoop_lookup_not_mem (cart : List String) (t : RecEntry)
    (cs : List String) (m : List (String × RecEntry)) (key : String)
    (h : key ∉ cs) :
    lookupRec (consLoop cart t m cs) key = lookupRec m key := by
  induction cs generalizing m with
  | nil => rfl
  | cons c cs ih =>
    have hck : c ≠ key := fun he => h (he ▸ List.mem_cons_self c cs)
    have hcs : key ∉ cs := fun he => h (List.mem_cons_of_mem c he)
    rw [consLoop, ih _ hcs, considerOne_lookup_ne cart t m c key hck]

lemma consLoop_lookup_mem (cart : List String) (t : RecEntry)
    (cs : List String) (m : List (String × RecEntry)) (key : String)
    (hk : key ∉ cart) (h : key ∈ cs) :
    lookupRec (consLoop cart t m cs) key = bestStep (lookupRec m key) t := by
  induction cs generalizing m with
  | nil => exact absurd h (List.not_mem_nil key)
  | cons c cs ih =>
    by_cases hck : c = key
    · subst hck
      by_cases hcs : c ∈ cs
      · rw [consLoop, ih _ hcs, considerOne_lookup_self cart t m c hk,
          bestStep_idem]
      · rw [consLoop, consLoop_lookup_not_mem cart t cs _ c hcs,
          considerOne_lookup_self cart t m c hk]
    · have hcs : key ∈ cs := (List.mem_cons.mp h).resolve_left fun he => hck he.symm
      rw [consLoop, ih _ hcs, considerOne_lookup_ne cart t m c key hck]

lemma processRule_lookup (cart : List String) (m : List (String × RecEntry))
    (r : AssocRule) (key : String) (hk : key ∉ cart) :
    lookupRec (processRule cart m r) key =
      if (∀ a ∈ r.antecedents, a ∈ cart) ∧ key ∈ r.consequents then
        bestStep (lookupRec m key) (tripleOf r)
      else lookupRec m key := by
  unfold processRule
  by_cases hant : ∀ a ∈ r.antecedents, a ∈ cart
  · rw [if_pos hant]
    by_cases hc : key ∈ r.consequents
    · rw [if_pos ⟨hant, hc⟩, consLoop_lookup_mem cart (tripleOf r) _ m key hk hc]
    · rw [if_neg (fun hand => hc hand.2),
        consLoop_lookup_not_mem cart (tripleOf r) _ m key hc]
  · rw [if_neg hant, if_neg (fun hand => hant hand.1)]

lemma recLoop_lookup (cart : List String) (rules : List AssocRule)
    (m : List (String × RecEntry)) (key : String) (hk : key ∉ cart) :
    lookupRec (recLoop cart m rules) key =
      bestScan (lookupRec m key) (candTriples cart key rules) := by
  induction rules generalizing m with
  | nil => rfl
  | cons r rs ih =>
    rw [recLoop, ih (processRule cart m r), processRule_lookup cart m r key hk]
    unfold candTriples
    by_cases hcond : (∀ a ∈ r.antecedents, a ∈ cart) ∧ key ∈ r.consequents
    · have hp :
        (fun r : AssocRule =>
            decide ((∀ a ∈ r.antecedents, a ∈ cart) ∧ key ∈ r.consequents)) r = true := by
        simpa using hcond
      rw [if_pos hcond, List.filter_cons, if_pos hp, List.map_cons, bestScan]
    · have hp :
        ¬(fun r : AssocRule =>
            decide ((∀ a ∈ r.antecedents, a ∈ cart) ∧ key ∈ r.consequents)) r = true := by
        simpa using hcond
      rw [if_neg hcond, List.filter_cons, if_neg hp]

/-- C1: for every cart and rule list, the recommendation mapping of
lines 163-186 assigns to each item outside the cart exactly the triple
obtained by scanning the candidate rules (antecedent contained in the cart,
item in the consequent) in input order, where the first candidate records
its (confidence, lift, support) triple and a later candidate replaces it
only when its confidence strictly exceeds the recorded one (ties keep the
first-seen rule, lift and support are carried along, never compared); in
particular, for the two rules `{A} -> {B}` with confidences 0.9 and 0.5,
only the 0.9 triple is kept for `B` in either input order. -/
theorem recommend_first_best :
    (∀ (cart : List String) (rules : List AssocRule) (item : String),
        item ∉ cart →
          lookupRec (recommendations cart rules) item =
            bestScan none (candTriples cart item rules)) ∧
      recommendations ["A"] [ruleHi, ruleLo] = [("B", tripleOf ruleHi)] ∧
        recommendations ["A"] [ruleLo, ruleHi] = [("B", tripleOf ruleHi)] := by
  refine ⟨fun cart rules item h => ?_, by decide, by decide⟩
  exact recLoop_lookup cart rules [] item h

/-- Witness for C1 at a concrete cart, rule list and item. -/
theorem recommend_first_best_witness :
    lookupRec (recommendations ["A"] [ruleHi, ruleLo]) "B" =
      bestScan none (candTriples ["A"] "B" [ruleHi, ruleLo]) :=
  recommend_first_best.1 ["A"] [ruleHi, ruleLo] "B" (by decide)

lemma considerOne_lookup_in_cart (cart : List String) (t : RecEntry)
    (m : List (String × RecEntry)) (c key : String) (hk : key ∈ cart) :
    lookupRec (considerOne cart t m c) key = lookupRec m key := by
  by_cases hck : c = key
  · subst hck
    unfold considerOne
    rw [if_pos hk]
  · exact considerOne_lookup_ne cart t m c key hck

lemma consLoop_lookup_in_cart (cart : List String) (t : RecEntry)
    (cs : List String) (m : List (String × RecEntry)) (key : String)
    (hk : key ∈ cart) :
    lookupRec (consLoop cart t m cs) key = lookupRec m key := by
  induction cs generalizing m with
  | nil => rfl
  | cons c cs ih =>
    rw [consLoop, ih _, considerOne_lookup_in_cart cart t m c key hk]

lemma recLoop_lookup_in_cart (cart : List String) (rules : List AssocRule)
    (m : List (String × RecEntry)) (key : String) (hk : key ∈ cart) :
    lookupRec (recLoop cart m rules) key = lookupRec m key := by
  induction rules generalizing m with
  | nil => rfl
  | cons r rs ih =>
    rw [recLoop, ih _]
    unfold processRule
    by_cases hant : ∀ a ∈ r.antecedents, a ∈ cart
    · rw [if_pos hant, consLoop_lookup_in_cart cart (tripleOf r) _ m key hk]
    · rw [if_neg hant]

lemma recLoop_no_match (cart : List String) (rules : List AssocRule)
    (m : List (String × RecEntry))
    (h : ∀ r ∈ rules, ¬∀ a ∈ r.antecedents, a ∈ cart) :
    recLoop cart m rules = m := by
  induction rules with
  | nil => rfl
  | cons r rs ih =>
    rw [recLoop]
    unfold processRule
    rw [if_neg (h r (List.mem_cons_self r rs)),
      ih fun r hr => h r (List.mem_cons_of_mem _ hr)]

lemma bestScan_some_isSome (b : RecEntry) (ts : List RecEntry) :
    ∃ v, bestScan (some b) ts = some v := by
  induction ts generalizing b with
  | nil => exact ⟨b, rfl⟩
  | cons t ts ih =>
    rw [bestScan]
    by_cases h : b.confidence < t.confidence
    · simpa [bestStep, h] using ih t
    · simpa [bestStep, h] using ih b

/-- C9: the antecedent-subset test of line 170 is vacuously true for a rule
whose decoded antecedent is empty, so for every cart such a rule matches and
each of its consequent items not already in the cart receives a
recommendation; no non-emptiness check is applied at query time. -/
theorem recommend_empty_antecedent (cart : List String)
    (rules : List AssocRule) (r : AssocRule) (hr : r ∈ rules)
    (hant : r.antecedents = []) (item : String) (hc : item ∈ r.consequents)
    (hitem : item ∉ cart) :
    (∀ a ∈ r.antecedents, a ∈ cart) ∧
      ∃ v, lookupRec (recommendations cart rules) item = some v := by
  have hsub : ∀ a ∈ r.antecedents, a ∈ cart := by
    rw [hant]
    intro a ha
    exact absurd ha (List.not_mem_nil a)
  refine ⟨hsub, ?_⟩
  rw [show recommendations cart rules = recLoop cart [] rules from rfl,
    recLoop_lookup cart rules [] item hitem]
  have hmem : tripleOf r ∈ candTriples cart item rules := by
    unfold candTriples
    exact List.mem_map_of_mem tripleOf
      (List.mem_filter.mpr ⟨hr, by simpa using ⟨hsub, hc⟩⟩)
  cases hts : candTriples cart item rules with
  | nil => rw [hts] at hmem; exact absurd hmem (List.not_mem_nil _)
  | cons t ts =>
    simpa [bestScan, lookupRec, bestStep] using bestScan_some_isSome t ts

/-- A rule with an empty antecedent set, as produced by decoding the text
of an empty set literal in the rules table. -/
def ruleEmptyAnt : AssocRule :=
  ⟨[], ["B"], mkRat 1 10, mkRat 1 2, 2, 3⟩

/-- Witness for C9 at a concrete cart sharing no item with the rule. -/
theorem recommend_empty_antecedent_witness :
    (∀ a ∈ ruleEmptyAnt.antecedents, a ∈ (["C"] : List String)) ∧
      ∃ v, lookupRec (recommendations ["C"] [ruleEmptyAnt]) "B" = some v :=
  recommend_empty_antecedent ["C"] [ruleEmptyAnt] ruleEmptyAnt
    (List.mem_singleton.mpr rfl) rfl "B" (by decide) (by decide)

/-- C8 counterexample: on the empty cart, a rule with an empty antecedent
still produces a non-empty recommendation mapping (the claim requires the
empty cart to yield an empty mapping). -/
theorem recommend_empty_cart_counterexample :
    recommendations [] [ruleEmptyAnt] =
      [("B", ⟨mkRat 1 2, 2, mkRat 1 10⟩)] := by decide

/-- C8 amended: the loop of lines 163-186 never maps an item already in the
cart, returns the empty mapping whenever no rule antecedent is contained in
the cart, and returns the empty mapping on the empty cart provided every
rule has a non-empty antecedent (an empty-antecedent rule matches the empty
cart and produces recommendations, see the counterexample). -/
theorem recommend_cart_exclusion :
    (∀ (cart : List String) (rules : List AssocRule) (item : String),
        item ∈ cart → lookupRec (recommendations cart rules) item = none) ∧
      (∀ (cart : List String) (rules : List AssocRule),
          (∀ r ∈ rules, ¬∀ a ∈ r.antecedents, a ∈ cart) →
            recommendations cart rules = []) ∧
        ∀ rules : List AssocRule,
          (∀ r ∈ rules, r.antecedents ≠ []) → recommendations [] rules = [] := by
  refine ⟨fun cart rules item h => ?_, fun cart rules h => ?_, fun rules h => ?_⟩
  · rw [show recommendations cart rules = recLoop cart [] rules from rfl,
      recLoop_lookup_in_cart cart rules [] item h]
    rfl
  · exact recLoop_no_match cart rules [] h
  · refine recLoop_no_match [] rules [] fun r hr hall => h r hr ?_
    cases hante : r.antecedents with
    | nil => rfl
    | cons a as =>
      exact absurd (hall a (by rw [hante]; exact List.mem_cons_self a as))
        (List.not_mem_nil a)

/-- Witness for C8 (amended) at a concrete cart and rule list. -/
theorem recommend_cart_exclusion_witness :
    lookupRec (recommendations ["A"] [ruleHi]) "A" = none :=
  recommend_cart_exclusion.1 ["A"] [ruleHi] "A" (by decide)

section SortModel

variable {α : Type} {β : Type} [LinearOrder β]

/-- Insert an element into an ascending list, after all elements of a key
not larger than its own (the stable ascending insertion step). -/
def insertAsc (key : α → β) (a : α) : List α → List α
  | [] => [a]
  | b :: l => if key b ≤ key a then b :: insertAsc key a l else a :: b :: l

/-- Stable ascending insertion sort by key, processing the input left to
right. -/
def sortAsc (key : α → β) (l : List α) : List α :=
  l.foldl (fun acc a => insertAsc key a acc) []

/-- Model of pandas `sort_values(..., ascending=False)` with the default
sort kind: pandas computes an ascending argsort of the key column and then
reverses the whole indexer (`nargsort`: `indexer = indexer[::-1]`); for
inputs below the introsort cutoff numpy falls back to insertion sort, which
is stable, so the result is the reverse of a stable ascending sort. -/
def sortValuesDesc (key : α → β) (l : List α) : List α :=
  (sortAsc key l).reverse

lemma mem_insertAsc (key : α → β) (a x : α) (l : List α) :
    x ∈ insertAsc key a l ↔ x = a ∨ x ∈ l := by
  induction l with
  | nil => simp [insertAsc]
  | cons b l ih =>
    by_cases h : key b ≤ key a
    · simp only [insertAsc, if_pos h, List.mem_cons, ih]
      tauto
    · simp only [insertAsc, if_neg h, List.mem_cons]

lemma insertAsc_pairwise (key : α → β) (a : α) (l : List α)
    (h : l.Pairwise fun x y => key x ≤ key y) :
    (insertAsc key a l).Pairwise fun x y => key x ≤ key y := by
  induction l with
  | nil => simp [insertAsc]
  | cons b l ih =>
    rw [List.pairwise_cons] at h
    obtain ⟨hb, hl⟩ := h
    by_cases hba : key b ≤ key a
    · rw [insertAsc, if_pos hba, List.pairwise_cons]
      refine ⟨fun x hx => ?_, ih hl⟩
      rcases (mem_insertAsc key a x l).mp hx with hxa | hxl
      · exact hxa ▸ hba
      · exact hb x hxl
    · rw [insertAsc, if_neg hba, List.pairwise_cons]
      refine ⟨fun x hx => ?_, List.pairwise_cons.mpr ⟨hb, hl⟩⟩
      rcases List.mem_cons.mp hx with hxb | hxl
      · exact hxb ▸ le_of_lt (lt_of_not_le hba)
      · exact le_trans (le_of_lt (lt_of_not_le hba)) (hb x hxl)

lemma foldl_insertAsc_pairwise (key : α → β) (l acc : List α)
    (h : acc.Pairwise fun x y => key x ≤ key y) :
    (l.foldl (fun acc a => insertAsc key a acc) acc).Pairwise
      fun x y => key x ≤ key y := by
  induction l generalizing acc with
  | nil => exact h
  | cons a l ih => exact ih (insertAsc key a acc) (insertAsc_pairwise key a acc h)

lemma sortAsc_pairwise (key : α → β) (l : List α) :
    (sortAsc key l).Pairwise fun x y => key x ≤ key y :=
  foldl_insertAsc_pairwise key l [] List.Pairwise.nil

lemma sortValuesDesc_pairwise (key : α → β) (l : List α) :
    (sortValuesDesc key l).Pairwise fun x y => key y ≤ key x := by
  unfold sortValuesDesc
  rw [List.pairwise_reverse]
  exact sortAsc_pairwise key l

lemma insertAsc_perm (key : α → β) (a : α) (l : List α) :
    List.Perm (insertAsc key a l) (a :: l) := by
  induction l with
  | nil => exact List.Perm.refl _
  | cons b l ih =>
    by_cases h : key b ≤ key a
    · rw [insertAsc, if_pos h]
      exact (ih.cons b).trans (List.Perm.swap a b l)
    · rw [insertAsc, if_neg h]

lemma foldl_insertAsc_perm (key : α → β) (l acc : List α) :
    List.Perm (l.foldl (fun acc a => insertAsc key a acc) acc) (acc ++ l) := by
  induction l generalizing acc with
  | nil => simp
  | cons a l ih =>
    refine (ih (insertAsc key a acc)).trans ?_
    refine (List.Perm.append_right l (insertAsc_perm key a acc)).trans ?_
    simpa using List.perm_middle.symm

lemma sortValuesDesc_perm (key : α → β) (l : List α) :
    List.Perm (sortValuesDesc key l) l := by
  refine (List.reverse_perm _).trans ?_
  simpa using foldl_insertAsc_perm key l []

lemma insertAsc_all_eq (key : α → β) (a : α) (l : List α) (c : β)
    (hl : ∀ x ∈ l, key x = c) (ha : key a = c) :
    insertAsc key a l = l ++ [a] := by
  induction l with
  | nil => rfl
  | cons b l ih =>
    have hb : key b ≤ key a := by
      rw [ha, hl b (List.mem_cons_self b l)]
    rw [insertAsc, if_pos hb, ih fun x hx => hl x (List.mem_cons_of_mem b hx)]
    rfl

lemma foldl_insertAsc_all_eq (key : α → β) (l : List α) (c : β) :
    ∀ acc : List α, (∀ x ∈ l, key x = c) → (∀ x ∈ acc, key x = c) →
      l.foldl (fun acc a => insertAsc key a acc) acc = acc ++ l := by
  induction l with
  | nil => simp
  | cons a l ih =>
    intro acc hl hacc
    have ha : key a = c := hl a (List.mem_cons_self a l)
    have hstep : insertAsc key a acc = acc ++ [a] :=
      insertAsc_all_eq key a acc c hacc ha
    rw [List.foldl_cons, hstep,
      ih (acc ++ [a]) (fun x hx => hl x (List.mem_cons_of_mem a hx))
        (fun x hx => ?_),
      List.append_assoc]
    · rfl
    rcases List.mem_append.mp hx with hx1 | hx2
    · exact hacc x hx1
    · rw [List.mem_singleton.mp hx2]
      exact ha

lemma sortValuesDesc_all_eq (key : α → β) (l : List α) (c : β)
    (hl : ∀ x ∈ l, key x = c) : sortValuesDesc key l = l.reverse := by
  unfold sortValuesDesc sortAsc
  rw [foldl_insertAsc_all_eq key l c [] hl (by simp)]
  rfl

end SortModel

/-- The sort of line 264: `filtered_rules.sort_values('lift', ascending=False)`
applied to a rule list. -/
def sortValuesLiftDesc (rules : List AssocRule) : List AssocRule :=
  sortValuesDesc (fun r => r.lift) rules

/-- A rule with lift 2.0, first in input order in the tie example. -/
def ruleTieA : AssocRule :=
  ⟨["A"], ["B"], mkRat 1 10, mkRat 1 2, 2, 1⟩

/-- A second rule with the same lift 2.0, second in input order. -/
def ruleTieB : AssocRule :=
  ⟨["C"], ["D"], mkRat 2 10, mkRat 1 3, 2, 1⟩

/-- C5 counterexample: two rules of equal lift come out in reversed input
order, so the sort is not stable (the claim requires equal-lift rules to
retain their relative input order, i.e. output `[ruleTieA, ruleTieB]`). -/
theorem sortLift_not_stable :
    sortValuesLiftDesc [ruleTieA, ruleTieB] = [ruleTieB, ruleTieA] := by decide

/-- C5 amended: the sort of line 264 orders any rule list descending by
lift and permutes the input, but it is not stable: pandas reverses an
ascending order, so rules of equal lift appear in reversed relative input
order (in particular a list of rules all sharing one lift value is returned
reversed). -/
theorem sortLift_desc_perm_antistable :
    (∀ rules : List AssocRule,
        (sortValuesLiftDesc rules).Pairwise fun a b => b.lift ≤ a.lift) ∧
      (∀ rules : List AssocRule, List.Perm (sortValuesLiftDesc rules) rules) ∧
        ∀ (c : ℚ) (rules : List AssocRule),
          (∀ r ∈ rules, r.lift = c) → sortValuesLiftDesc rules = rules.reverse :=
  ⟨fun rules => sortValuesDesc_pairwise _ rules,
    fun rules => sortValuesDesc_perm _ rules,
    fun c rules h => sortValuesDesc_all_eq _ rules c h⟩

/-- Witness for C5 (amended) at a concrete equal-lift rule list. -/
theorem sortLift_desc_perm_antistable_witness :
    sortValuesLiftDesc [ruleTieA, ruleTieB] = [ruleTieA, ruleTieB].reverse :=
  sortLift_desc_perm_antistable.2.2 2 [ruleTieA, ruleTieB] (by decide)

/-- The boolean filter of lines 260-264:
`rules[(rules['confidence'] >= min_confidence) & (rules['lift'] >= min_lift)
& (rules['support'] >= min_support)]`. -/
def filterRules (rules : List AssocRule) (minConfidence minLift minSupport : ℚ) :
    List AssocRule :=
  rules.filter fun r =>
    decide (minConfidence ≤ r.confidence ∧ minLift ≤ r.lift ∧
      minSupport ≤ r.support)

/-- C6: the filter of lines 260-264 uses inclusive lower bounds on
confidence, lift and support (membership holds exactly when each metric is
greater than or equal to its threshold), and it is monotone in the
thresholds: raising any threshold can only shrink the result set. -/
theorem filterRules_inclusive_monotone :
    (∀ (rules : List AssocRule) (r : AssocRule) (c l s : ℚ),
        r ∈ filterRules rules c l s ↔
          r ∈ rules ∧ c ≤ r.confidence ∧ l ≤ r.lift ∧ s ≤ r.support) ∧
      ∀ (rules : List AssocRule) (r : AssocRule) (c1 l1 s1 c2 l2 s2 : ℚ),
        c1 ≤ c2 → l1 ≤ l2 → s1 ≤ s2 → r ∈ filterRules rules c2 l2 s2 →
          r ∈ filterRules rules c1 l1 s1 := by
  have hmem : ∀ (rules : List AssocRule) (r : AssocRule) (c l s : ℚ),
      r ∈ filterRules rules c l s ↔
        r ∈ rules ∧ c ≤ r.confidence ∧ l ≤ r.lift ∧ s ≤ r.support := by
    intro rules r c l s
    unfold filterRules
    rw [List.mem_filter]
    simp
  refine ⟨hmem, fun rules r c1 l1 s1 c2 l2 s2 hc hl hs hr => ?_⟩
  obtain ⟨hrr, h1, h2, h3⟩ := (hmem rules r c2 l2 s2).mp hr
  exact (hmem rules r c1 l1 s1).mpr
    ⟨hrr, le_trans hc h1, le_trans hl h2, le_trans hs h3⟩

/-- Witness for C6 at a concrete rule list and thresholds. -/
theorem filterRules_inclusive_monotone_witness :
    ruleHi ∈ filterRules [ruleHi] 0 1 0 :=
  filterRules_inclusive_monotone.2 [ruleHi] ruleHi 0 1 0 (mkRat 1 2) 2
    (mkRat 1 1000) (by decide) (by decide) (by decide) (by decide)

/-- Number of occurrences of an item in a list (the count a Python
`Counter` or `value_counts` assigns per occurrence). -/
def countOcc (x : String) : List String → Nat
  | [] => 0
  | y :: l => (if y = x then 1 else 0) + countOcc x l

/-- `Counter` increment `m[k] += 1`: bump the entry in place when the key
is present, append `(k, 1)` otherwise. -/
def counterInc : List (String × Nat) → String → List (String × Nat)
  | [], k => [(k, 1)]
  | (k0, n) :: m, k =>
    if k0 = k then (k0, n + 1) :: m else (k0, n) :: counterInc m k

/-- The count a counter holds for a key (0 when absent). -/
def counterGet : List (String × Nat) → String → Nat
  | [], _ => 0
  | (k0, n) :: m, k => if k0 = k then n else counterGet m k

lemma counterGet_inc_self (m : List (String × Nat)) (k : String) :
    counterGet (counterInc m k) k = counterGet m k + 1 := by
  induction m with
  | nil => simp [counterInc, counterGet]
  | cons p m ih =>
    obtain ⟨k0, n⟩ := p
    by_cases h : k0 = k
    · subst h
      simp [counterInc, counterGet]
    · simp [counterInc, counterGet, h, ih]

lemma counterGet_inc_ne (m : List (String × Nat)) (k key : String)
    (h : k ≠ key) : counterGet (counterInc m k) key = counterGet m key := by
  induction m with
  | nil => simp [counterInc, counterGet, h]
  | cons p m ih =>
    obtain ⟨k0, n⟩ := p
    by_cases h0 : k0 = k
    · subst h0
      simp [counterInc, counterGet, h]
    · simp [counterInc, counterGet, h0, ih]

lemma counterInc_keys (m : List (String × Nat)) (k : String) :
    (counterInc m k).map Prod.fst =
      if k ∈ m.map Prod.fst then m.map Prod.fst else m.map Prod.fst ++ [k] := by
  induction m with
  | nil => simp [counterInc]
  | cons p m ih =>
    obtain ⟨k0, n⟩ := p
    by_cases h : k0 = k
    · subst h
      simp [counterInc]
    · have hne : ¬k = k0 := fun he => h he.symm
      by_cases hm : k ∈ m.map Prod.fst
      · simp [counterInc, h, ih, hm, hne]
      · simp [counterInc, h, ih, hm, hne]

lemma counterInc_keys_mono (m : List (String × Nat)) (k j : String)
    (h : j ∈ m.map Prod.fst) : j ∈ (counterInc m k).map Prod.fst := by
  rw [counterInc_keys]
  by_cases hk : k ∈ m.map Prod.fst
  · rwa [if_pos hk]
  · rw [if_neg hk]
    exact List.mem_append_left _ h

lemma counterInc_keys_self (m : List (String × Nat)) (k : String) :
    k ∈ (counterInc m k).map Prod.fst := by
  rw [counterInc_keys]
  by_cases hk : k ∈ m.map Prod.fst
  · rwa [if_pos hk]
  · rw [if_neg hk]
    exact List.mem_append_right _ (List.mem_singleton.mpr rfl)

lemma counterInc_keys_nodup (m : List (String × Nat)) (k : String)
    (h : (m.map Prod.fst).Nodup) : ((counterInc m k).map Prod.fst).Nodup := by
  rw [counterInc_keys]
  by_cases hk : k ∈ m.map Prod.fst
  · rwa [if_pos hk]
  · rw [if_neg hk]
    simp [List.nodup_append, h, hk]

lemma counterInc_keys_not_mem (m : List (String × Nat)) (k j : String)
    (hj : j ∉ m.map Prod.fst) (hjk : j ≠ k) :
    j ∉ (counterInc m k).map Prod.fst := by
  rw [counterInc_keys]
  by_cases hk : k ∈ m.map Prod.fst
  · rwa [if_pos hk]
  · rw [if_neg hk]
    intro hmem
    rcases List.mem_append.mp hmem with h1 | h2
    · exact hj h1
    · exact hjk (List.mem_singleton.mp h2)

lemma counter_mem_of_key (m : List (String × Nat)) (k : String)
    (h : k ∈ m.map Prod.fst) : (k, counterGet m k) ∈ m := by
  induction m with
  | nil => simp at h
  | cons p m ih =>
    obtain ⟨k0, n⟩ := p
    by_cases hk : k0 = k
    · subst hk
      simp [counterGet]
    · have hne : ¬k = k0 := fun he => hk he.symm
      have hm : k ∈ m.map Prod.fst := by
        simpa [hne] using h
      simp only [counterGet, if_neg hk]
      exact List.mem_cons_of_mem _ (ih hm)

lemma counter_val_of_mem (m : List (String × Nat))
    (hnd : (m.map Prod.fst).Nodup) (p : String × Nat) (hp : p ∈ m) :
    p.2 = counterGet m p.1 := by
  induction m with
  | nil => simp at hp
  | cons q m ih =>
    obtain ⟨k0, n⟩ := q
    rw [List.map_cons, List.nodup_cons] at hnd
    rcases List.mem_cons.mp hp with hpq | hpm
    · subst hpq
      simp [counterGet]
    · have hne : k0 ≠ p.1 := by
        intro he
        apply hnd.1
        rw [he]
        exact List.mem_map.mpr (Exists.intro p (And.intro hpm rfl))
      simp only [counterGet, if_neg hne]
      exact ih hnd.2 hpm

/-- The inner loop of lines 106-108: for every item of one transaction
other than the target, increment its counter (once per occurrence, no
within-transaction deduplication). -/
def transLoop (target : String) (m : List (String × Nat)) :
    List String → List (String × Nat)
  | [] => m
  | i :: is => transLoop target (if i = target then m else counterInc m i) is

/-- The outer loop of lines 103-108: process every transaction containing
the target. -/
def coCounter (target : String) (m : List (String × Nat)) :
    List (List String) → List (String × Nat)
  | [] => m
  | t :: ts =>
    coCounter target (if target ∈ t then transLoop target m t else m) ts

/-- Lines 102-114: the co-occurrence counter sorted descending by count
(the display additionally truncates to the top 20 entries, a
presentation-layer step). -/
def coOccurrences (target : String) (ts : List (List String)) :
    List (String × Nat) :=
  sortValuesDesc (fun p => p.2) (coCounter target [] ts)

/-- The count the source assigns to one co-occurring item: its number of
occurrences summed over the transactions that contain the target. -/
def coCountOf (target item : String) : List (List String) → Nat
  | [] => 0
  | t :: ts => (if target ∈ t then countOcc item t else 0) + coCountOf target item ts

lemma transLoop_get (target : String) (is : List String)
    (m : List (String × Nat)) (key : String) (hk : key ≠ target) :
    counterGet (transLoop target m is) key = counterGet m key + countOcc key is := by
  induction is generalizing m with
  | nil => rfl
  | cons i is ih =>
    by_cases hi : i = target
    · have hik : ¬i = key := by
        rw [hi]
        exact fun he => hk he.symm
      rw [transLoop, if_pos hi, ih m, countOcc, if_neg hik]
      omega
    · by_cases hik : i = key
      · subst hik
        rw [transLoop, if_neg hi, ih _, counterGet_inc_self, countOcc, if_pos rfl]
        omega
      · rw [transLoop, if_neg hi, ih _, counterGet_inc_ne m i key hik, countOcc,
          if_neg hik]
        omega

lemma transLoop_keys_nodup (target : String) (is : List String)
    (m : List (String × Nat)) (h : (m.map Prod.fst).Nodup) :
    ((transLoop target m is).map Prod.fst).Nodup := by
  induction is generalizing m with
  | nil => exact h
  | cons i is ih =>
    rw [transLoop]
    by_cases hi : i = target
    · rw [if_pos hi]
      exact ih m h
    · rw [if_neg hi]
      exact ih _ (counterInc_keys_nodup m i h)

lemma transLoop_keys_no_target (target : String) (is : List String)
    (m : List (String × Nat)) (h : target ∉ m.map Prod.fst) :
    target ∉ (transLoop target m is).map Prod.fst := by
  induction is generalizing m with
  | nil => exact h
  | cons i is ih =>
    rw [transLoop]
    by_cases hi : i = target
    · rw [if_pos hi]
      exact ih m h
    · rw [if_neg hi]
      exact ih _ (counterInc_keys_not_mem m i target h fun he => hi he.symm)

lemma coCounter_get (target : String) (ts : List (List String))
    (m : List (String × Nat)) (key : String) (hk : key ≠ target) :
    counterGet (coCounter target m ts) key =
      counterGet m key + coCountOf target key ts := by
  induction ts generalizing m with
  | nil => rfl
  | cons t ts ih =>
    rw [coCounter, coCountOf]
    by_cases ht : target ∈ t
    · rw [if_pos ht, if_pos ht, ih _, transLoop_get target t m key hk]
      omega
    · rw [if_neg ht, if_neg ht, ih m]
      omega

lemma coCounter_keys_nodup (target : String) (ts : List (List String))
    (m : List (String × Nat)) (h : (m.map Prod.fst).Nodup) :
    ((coCounter target m ts).map Prod.fst).Nodup := by
  induction ts generalizing m with
  | nil => exact h
  | cons t ts ih =>
    rw [coCounter]
    by_cases ht : target ∈ t
    · rw [if_pos ht]
      exact ih _ (transLoop_keys_nodup target t m h)
    · rw [if_neg ht]
      exact ih m h

lemma coCounter_keys_no_target (target : String) (ts : List (List String))
    (m : List (String × Nat)) (h : target ∉ m.map Prod.fst) :
    target ∉ (coCounter target m ts).map Prod.fst := by
  induction ts generalizing m with
  | nil => exact h
  | cons t ts ih =>
    rw [coCounter]
    by_cases ht : target ∈ t
    · rw [if_pos ht]
      exact ih _ (transLoop_keys_no_target target t m h)
    · rw [if_neg ht]
      exact ih m h

lemma coCounter_absent (target : String) (ts : List (List String))
    (m : List (String × Nat)) (h : ∀ t ∈ ts, target ∉ t) :
    coCounter target m ts = m := by
  induction ts with
  | nil => rfl
  | cons t ts ih =>
    rw [coCounter, if_neg (h t (List.mem_cons_self t ts)),
      ih fun u hu => h u (List.mem_cons_of_mem t hu)]

/-- C3 counterexample: with target `milk` and the single transaction
`[milk, bread, bread]`, the loop of lines 103-108 counts `bread` twice —
the claim requires within-transaction deduplication, which would count it
once. -/
theorem coOccurrences_counts_duplicates :
    coOccurrences "milk" [["milk", "bread", "bread"]] = [("bread", 2)] := by
  decide

/-- C3 amended: the analysis of lines 102-114 never outputs the target
item, returns the empty sequence when the target occurs in no transaction,
sorts the (item, count) pairs descending by count, and counts each
co-occurring item once per occurrence in the transactions containing the
target (within-transaction repeats are counted multiply, not deduplicated). -/
theorem coOccurrences_spec :
    (∀ (target : String) (ts : List (List String)) (p : String × Nat),
        p ∈ coOccurrences target ts → p.1 ≠ target) ∧
      (∀ (target : String) (ts : List (List String)),
          (∀ t ∈ ts, target ∉ t) → coOccurrences target ts = []) ∧
        (∀ (target : String) (ts : List (List String)),
            (coOccurrences target ts).Pairwise fun a b => b.2 ≤ a.2) ∧
          ∀ (target : String) (ts : List (List String)) (p : String × Nat),
            p ∈ coOccurrences target ts → p.2 = coCountOf target p.1 ts := by
  have hmem : ∀ (target : String) (ts : List (List String)) (p : String × Nat),
      p ∈ coOccurrences target ts → p ∈ coCounter target [] ts := by
    intro target ts p hp
    exact (List.Perm.mem_iff (sortValuesDesc_perm _ _)).mp hp
  have hne : ∀ (target : String) (ts : List (List String)) (p : String × Nat),
      p ∈ coOccurrences target ts → p.1 ≠ target := by
    intro target ts p hp he
    apply coCounter_keys_no_target target ts [] (by simp)
    exact List.mem_map.mpr (Exists.intro p (And.intro (hmem target ts p hp) he))
  refine ⟨hne, fun target ts h => ?_, fun target ts => ?_, fun target ts p hp => ?_⟩
  · unfold coOccurrences
    rw [coCounter_absent target ts [] h]
    rfl
  · exact sortValuesDesc_pairwise _ _
  · have h1 : p ∈ coCounter target [] ts := hmem target ts p hp
    have h2 := counter_val_of_mem (coCounter target [] ts)
      (coCounter_keys_nodup target ts [] (by simp)) p h1
    rw [h2, coCounter_get target ts [] p.1 (hne target ts p hp)]
    simp [counterGet]

/-- Witness for C3 (amended) at a concrete target and transaction list. -/
theorem coOccurrences_spec_witness :
    (("bread", 2) : String × Nat).2 =
      coCountOf "milk" "bread" [["milk", "bread", "bread"]] :=
  coOccurrences_spec.2.2.2 "milk" [["milk", "bread", "bread"]] ("bread", 2)
    (by decide)

/-- Line 41: `[item for transaction in transactions for item in transaction]`. -/
def allItems : List (List String) → List String
  | [] => []
  | t :: ts => t ++ allItems ts

/-- Counting loop over a flat item list (the tally `value_counts`
computes at line 42). -/
def countLoop (m : List (String × Nat)) : List String → List (String × Nat)
  | [] => m
  | i :: is => countLoop (counterInc m i) is

/-- Lines 40-43: the item frequency table — occurrence counts over the
flattened transactions, sorted descending by count. -/
def itemFreq (ts : List (List String)) : List (String × Nat) :=
  sortValuesDesc (fun p => p.2) (countLoop [] (allItems ts))

lemma countLoop_get (is : List String) (m : List (String × Nat)) (key : String) :
    counterGet (countLoop m is) key = counterGet m key + countOcc key is := by
  induction is generalizing m with
  | nil => rfl
  | cons i is ih =>
    by_cases hik : i = key
    · subst hik
      rw [countLoop, ih _, counterGet_inc_self, countOcc, if_pos rfl]
      omega
    · rw [countLoop, ih _, counterGet_inc_ne m i key hik, countOcc, if_neg hik]
      omega

lemma countLoop_keys_nodup (is : List String) (m : List (String × Nat))
    (h : (m.map Prod.fst).Nodup) : ((countLoop m is).map Prod.fst).Nodup := by
  induction is generalizing m with
  | nil => exact h
  | cons i is ih => exact ih _ (counterInc_keys_nodup m i h)

lemma countLoop_keys_mono (is : List String) (m : List (String × Nat))
    (j : String) (h : j ∈ m.map Prod.fst) :
    j ∈ (countLoop m is).map Prod.fst := by
  induction is generalizing m with
  | nil => exact h
  | cons i is ih => exact ih _ (counterInc_keys_mono m i j h)

lemma countLoop_keys_of_mem (is : List String) (m : List (String × Nat))
    (i : String) (h : i ∈ is) : i ∈ (countLoop m is).map Prod.fst := by
  induction is generalizing m with
  | nil => exact absurd h (List.not_mem_nil i)
  | cons j is ih =>
    by_cases hij : i = j
    · subst hij
      exact countLoop_keys_mono is _ i (counterInc_keys_self m i)
    · have : i ∈ is := (List.mem_cons.mp h).resolve_left hij
      exact ih _ this

/-- C7: the frequency table of lines 40-43 assigns each distinct item a
count equal to its total number of occurrences across all transactions
(one increment per occurrence, within-transaction duplicates included),
covers every occurring item, and is sorted descending by count. -/
theorem itemFreq_counts_sorted :
    (∀ (ts : List (List String)) (p : String × Nat),
        p ∈ itemFreq ts → p.2 = countOcc p.1 (allItems ts)) ∧
      (∀ (ts : List (List String)) (i : String),
          i ∈ allItems ts → (i, countOcc i (allItems ts)) ∈ itemFreq ts) ∧
        ∀ ts : List (List String),
          (itemFreq ts).Pairwise fun a b => b.2 ≤ a.2 := by
  refine ⟨fun ts p hp => ?_, fun ts i hi => ?_, fun ts => sortValuesDesc_pairwise _ _⟩
  · have h1 : p ∈ countLoop [] (allItems ts) :=
      (List.Perm.mem_iff (sortValuesDesc_perm _ _)).mp hp
    have h2 := counter_val_of_mem (countLoop [] (allItems ts))
      (countLoop_keys_nodup (allItems ts) [] (by simp)) p h1
    rw [h2, countLoop_get (allItems ts) [] p.1]
    simp [counterGet]
  · have hk : i ∈ (countLoop [] (allItems ts)).map Prod.fst :=
      countLoop_keys_of_mem (allItems ts) [] i hi
    have hmem := counter_mem_of_key (countLoop [] (allItems ts)) i hk
    rw [countLoop_get (allItems ts) [] i] at hmem
    have hz : counterGet [] i + countOcc i (allItems ts) = countOcc i (allItems ts) := by
      simp [counterGet]
    rw [hz] at hmem
    exact (List.Perm.mem_iff (sortValuesDesc_perm _ _)).mpr hmem

/-- Witness for C7 at a concrete transaction list. -/
theorem itemFreq_counts_sorted_witness :
    ("milk", countOcc "milk" (allItems [["milk"], ["milk", "bread"]])) ∈
      itemFreq [["milk"], ["milk", "bread"]] :=
  itemFreq_counts_sorted.2.1 [["milk"], ["milk", "bread"]] "milk" (by decide)

/-- Line 136: `sum(1 for t in transactions if selected_product in t)` —
the number of transactions containing the item at least once. -/
def occurrenceCount (target : String) (ts : List (List String)) : Nat :=
  (ts.filter fun t => decide (target ∈ t)).length

lemma countOcc_append (x : String) (l1 l2 : List String) :
    countOcc x (l1 ++ l2) = countOcc x l1 + countOcc x l2 := by
  induction l1 with
  | nil => simp [countOcc]
  | cons y l ih =>
    rw [List.cons_append, countOcc, countOcc, ih]
    omega

lemma countOcc_pos_of_mem (x : String) (l : List String) (h : x ∈ l) :
    1 ≤ countOcc x l := by
  induction l with
  | nil => exact absurd h (List.not_mem_nil x)
  | cons y l ih =>
    rw [countOcc]
    by_cases hxy : y = x
    · rw [if_pos hxy]
      omega
    · have : x ∈ l := (List.mem_cons.mp h).resolve_left fun he => hxy he.symm
      have := ih this
      omega

lemma countOcc_eq_zero_of_not_mem (x : String) (l : List String) (h : x ∉ l) :
    countOcc x l = 0 := by
  induction l with
  | nil => rfl
  | cons y l ih =>
    have hxy : ¬y = x := fun he => h (he ▸ List.mem_cons_self y l)
    have hxl : x ∉ l := fun hm => h (List.mem_cons_of_mem y hm)
    rw [countOcc, if_neg hxy, ih hxl]

lemma occurrenceCount_cons (target : String) (t : List String)
    (ts : List (List String)) :
    occurrenceCount target (t :: ts) =
      (if target ∈ t then 1 else 0) + occurrenceCount target ts := by
  unfold occurrenceCount
  rw [List.filter_cons]
  by_cases h : target ∈ t
  · simp [h]
    omega
  · simp [h]

/-- C10: for every item, the number of transactions containing it at least
once (line 136) is at most its total occurrence count over the flattened
transactions (the frequency table entry of lines 40-43, by
`itemFreq_counts_sorted`), with equality exactly when no transaction
contains the item more than once. -/
theorem occurrence_le_total (target : String) (ts : List (List String)) :
    occurrenceCount target ts ≤ countOcc target (allItems ts) ∧
      (occurrenceCount target ts = countOcc target (allItems ts) ↔
        ∀ t ∈ ts, countOcc target t ≤ 1) := by
  induction ts with
  | nil =>
    refine ⟨le_refl 0, ?_⟩
    simp [occurrenceCount, allItems, countOcc]
  | cons t rest ih =>
    obtain ⟨ih1, ih2⟩ := ih
    rw [occurrenceCount_cons,
      show allItems (t :: rest) = t ++ allItems rest from rfl, countOcc_append,
      List.forall_mem_cons]
    by_cases h : target ∈ t
    · have hc : 1 ≤ countOcc target t := countOcc_pos_of_mem target t h
      rw [if_pos h]
      refine ⟨by omega, ?_, ?_⟩
      · intro he
        have h1 : countOcc target t = 1 := by omega
        have h2 : occurrenceCount target rest = countOcc target (allItems rest) := by
          omega
        exact ⟨le_of_eq h1, ih2.mp h2⟩
      · rintro ⟨h1, h2⟩
        have e1 : countOcc target t = 1 := le_antisymm h1 hc
        have e2 := ih2.mpr h2
        omega
    · have hc : countOcc target t = 0 := countOcc_eq_zero_of_not_mem target t h
      rw [if_neg h]
      refine ⟨by omega, ?_, ?_⟩
      · intro he
        exact ⟨by omega, ih2.mp (by omega)⟩
      · rintro ⟨h1, h2⟩
        have := ih2.mpr h2
        omega

/-- Witness for C10 at a concrete item and transaction list with a
within-transaction duplicate. -/
theorem occurrence_le_total_witness :
    occurrenceCount "milk" [["milk", "milk"]] ≤
      countOcc "milk" (allItems [["milk", "milk"]]) :=
  (occurrence_le_total "milk" [["milk", "milk"]]).1

/-- Python `str.strip()` as used at lines 33-34: remove whitespace
characters from both ends of the string. -/
def stripStr (s : String) : String :=
  ⟨(((s.data.dropWhile Char.isWhitespace).reverse.dropWhile
      Char.isWhitespace).reverse)⟩

/-- One cell of a raw transaction row: `none` models an absent cell
(`NaN` after `pd.read_csv`), `some s` a textual cell. -/
def cellKeep (c : Option String) : Option String :=
  c.bind fun s => if stripStr s = "" then none else some (stripStr s)

/-- Lines 33-35: the list comprehension keeps the stripped text of every
present, non-blank cell (in order), and `trans[1:]` then drops the first
surviving cell. -/
def rowToTransaction (row : List (Option String)) : List String :=
  (row.filterMap cellKeep).drop 1

/-- Lines 31-35: every raw row becomes one transaction. -/
def loadTransactions (rows : List (List (Option String))) : List (List String) :=
  rows.map rowToTransaction

/-- Follows the spec words for C4: first drop the first raw cell of the
row, then strip and drop the absent or blank cells among the rest. -/
def rowToTransactionSpec (row : List (Option String)) : List String :=
  (row.drop 1).filterMap cellKeep

/-- C4 counterexample: on a row whose first cell is blank, the source drops
the first surviving cell and loses `milk`, while the claimed order of
operations (drop the first raw cell, then drop blanks) keeps
`[milk, bread]`. -/
theorem loadTransactions_blank_first_cell :
    loadTransactions [[some "", some "milk", some "bread"]] = [["bread"]] ∧
      rowToTransactionSpec [some "", some "milk", some "bread"] =
        ["milk", "bread"] := by
  constructor
  · rfl
  · rfl

/-- C4 amended: the source filters absent and blank cells first and then
drops the first surviving cell; whenever the first cell is present and
non-blank after stripping this agrees with the claimed order (drop the
first cell, then strip, then drop blanks), and in particular the input
`[["1", "milk", "", "bread"]]` yields the transaction `["milk", "bread"]`. -/
theorem rowToTransaction_first_nonblank :
    (∀ (s : String) (row : List (Option String)),
        stripStr s ≠ "" →
          rowToTransaction (some s :: row) = rowToTransactionSpec (some s :: row)) ∧
      loadTransactions [[some "1", some "milk", some "", some "bread"]] =
        [["milk", "bread"]] := by
  constructor
  · intro s row h
    unfold rowToTransaction rowToTransactionSpec
    rw [List.filterMap_cons]
    have hc : cellKeep (some s) = some (stripStr s) := by
      unfold cellKeep
      simp [h]
    rw [hc, List.drop_one, List.tail_cons, List.drop_one, List.tail_cons]
  · rfl

/-- Witness for C4 (amended) at a concrete row with a non-blank first cell. -/
theorem rowToTransaction_first_nonblank_witness :
    rowToTransaction [some "1", some "milk"] =
      rowToTransactionSpec [some "1", some "milk"] :=
  rowToTransaction_first_nonblank.1 "1" [some "milk"] (by decide)

/-- The error taxonomy the spec prescribes for loading
(malformed set encoding, antecedent/consequent overlap, empty set). -/
inductive DataFormatError where
  | decodeFailure
  | overlap
  | emptySet
deriving DecidableEq, Repr

/-- The rule-loading step of the source (lines 37-38 with the query-time
decode of lines 165-167, 210, 215, 270-271): `pd.read_csv` loads the rows
and the set columns are decoded by the general evaluator `eval` when used;
no emptiness check, no disjointness check and no decode validation exists
on any path, so every decoded row is accepted and no `DataFormatError` is
ever produced. -/
def loadRules (rows : List AssocRule) : Except DataFormatError (List AssocRule) :=
  Except.ok rows

/-- A rule whose antecedent and consequent overlap (both contain `milk`). -/
def overlappingRule : AssocRule :=
  ⟨["milk"], ["milk", "bread"], mkRat 1 10, mkRat 1 2, 1, 1⟩

/-- A rule whose antecedent and consequent are both empty. -/
def emptySetsRule : AssocRule :=
  ⟨[], [], mkRat 1 10, mkRat 1 2, 1, 1⟩

/-- C2: the source accepts an overlapping rule and an empty-set rule
without any error — the claim requires `RuleStore.load` to fail with
`DataFormatError` on exactly these inputs (and to use a format-restricted
parser rather than a general evaluator, whereas the source decodes with
`eval`). -/
theorem loadRules_accepts_invalid :
    loadRules [overlappingRule, emptySetsRule] =
      Except.ok [overlappingRule, emptySetsRule] :=
  rfl
